import Mathlib

/-!
# MatrixScript: a verification development

Shallow embedding of the MatrixScript JIT compiler
(`src/compiler/{ast,lexer,parser,codegen,jit}.rs`) and proofs about it.

Modelling conventions:
* The scalar domain (`f64` in the source) is an abstract type `α` carrying the
  four arithmetic operations.  Both the compiled code and the reference
  semantics use the same operations, so every statement below is about the
  structure of the computation, which is exactly what the source determines.
* LLVM IR emission plus JIT execution is interpreted denotationally: each
  builder call is mapped to the run-time effect of the instruction it emits.
  Matrix records are heap objects that are written once and never mutated
  afterwards, so they are modelled by value (`MatrixRec`).
* Malloc'd uninitialized memory is modelled by `default` junk values.
* `i64` quantities (`rows`, `cols`, loop index) originate from Rust `Vec`
  lengths and are therefore non-negative and far below `2^63`; they are
  modelled as `Nat`, which agrees with the machine semantics on that range.
* Rust `Result` with `bail!` is modelled by `Except String`; the `?`
  propagation operator becomes an explicit `match` on the intermediate result.
* The parser object's mutable cursor is modelled by passing the remaining
  token list; recursion is driven by an explicit fuel argument (the Rust
  recursion has no fuel, but for every input accepted by the Rust parser some
  fuel suffices, and all theorems quantify over the fuel).
-/

namespace MatrixScript

/-- Tokens of the language, from `lexer.rs` (`enum Token`).  The payload of
`Number` is the abstract scalar type standing for `f64`. -/
inductive Token (α : Type) where
  | Let : Token α
  | Return : Token α
  | Fn : Token α
  | Plus : Token α
  | Minus : Token α
  | Star : Token α
  | Slash : Token α
  | Assign : Token α
  | SemiColon : Token α
  | LBracket : Token α
  | RBracket : Token α
  | LParen : Token α
  | RParen : Token α
  | LBrace : Token α
  | RBrace : Token α
  | Comma : Token α
  | Identifier : String → Token α
  | Number : α → Token α
deriving DecidableEq, Repr

/-- Binary operators, from `ast.rs` (`enum Op`). -/
inductive Op where
  | Add : Op
  | Subtract : Op
  | Multiply : Op
  | Divide : Op
deriving DecidableEq, Repr

/-- Rendering of `Op` matching Rust's `{:?}` debug format, used in the
"Operator .. not supported" error message of `codegen.rs`. -/
def Op.debugStr : Op → String
  | .Add => "Add"
  | .Subtract => "Subtract"
  | .Multiply => "Multiply"
  | .Divide => "Divide"

/-- Expressions, from `ast.rs` (`enum Expr`). -/
inductive Expr (α : Type) where
  | Number : α → Expr α
  | BinaryOp : Expr α → Op → Expr α → Expr α
  | MatrixLiteral : List (List (Expr α)) → Expr α
  | Identifier : String → Expr α
deriving Repr

/-- Statements, from `ast.rs` (`enum Stmt`). -/
inductive Stmt (α : Type) where
  | Let : String → Expr α → Stmt α
  | Return : Expr α → Stmt α
deriving Repr

/-- Function definitions, from `ast.rs` (`struct Function`). -/
structure Function (α : Type) where
  name : String
  body : List (Stmt α)

/-- Whole programs, from `ast.rs` (`struct Program`). -/
structure Program (α : Type) where
  functions : List (Function α)

/-- Inferred return kind, from `codegen.rs` (`enum FunctionReturnType`). -/
inductive FunctionReturnType where
  | Scalar : FunctionReturnType
  | Matrix : FunctionReturnType
deriving DecidableEq, Repr

/-- Association-list lookup, modelling `HashMap::get` on the tables of
`codegen.rs` (most recent insertion wins, see `lookupVar`/`lookupKind`). -/
def alookup {β : Type} : List (String × β) → String → Option β
  | [], _ => none
  | (m, v) :: rest, n => if m = n then some v else alookup rest n

/-- The type table of `infer_return_type` (`local_types: HashMap<String,
FunctionReturnType>`), as an association list where `insert` is `cons`. -/
abbrev KindTable := List (String × FunctionReturnType)

/-- Lookup in the inference table, modelling `locals.get(name)`. -/
def lookupKind (locals : KindTable) (n : String) : Option FunctionReturnType :=
  alookup locals n

/-- `CodeGen::infer_expr_type` from `codegen.rs`, lines 101-116, translated
clause by clause.  `locals.get(name).unwrap_or(&Scalar)` becomes
`(lookupKind locals name).getD .Scalar`. -/
def infer_expr_type {α : Type} (locals : KindTable) : Expr α → FunctionReturnType
  | .Number _ => .Scalar
  | .MatrixLiteral _ => .Matrix
  | .Identifier name => (lookupKind locals name).getD .Scalar
  | .BinaryOp left _ right =>
      let lhs := infer_expr_type locals left
      let rhs := infer_expr_type locals right
      if lhs = .Matrix ∨ rhs = .Matrix then .Matrix else .Scalar

/-- The statement walk of `CodeGen::infer_return_type` (`codegen.rs` lines
84-99): bind each `Let`, answer at the first `Return`, default `Scalar`. -/
def inferWalk {α : Type} (locals : KindTable) : List (Stmt α) → FunctionReturnType
  | [] => .Scalar
  | .Let name e :: rest => inferWalk ((name, infer_expr_type locals e) :: locals) rest
  | .Return e :: _ => infer_expr_type locals e

/-- `CodeGen::infer_return_type`, starting from the empty table. -/
def infer_return_type {α : Type} (f : Function α) : FunctionReturnType :=
  inferWalk [] f.body

/-- Run-time matrix record (`matrix_type` in `codegen.rs`: a struct of a data
pointer, `rows: i64`, `cols: i64`).  The owned buffer is inlined as a list. -/
structure MatrixRec (α : Type) where
  data : List α
  rows : Nat
  cols : Nat
deriving DecidableEq, Repr

/-- A compiled value: a native double (`FloatValue`) or a pointer to a matrix
record (`PointerValue`), the two cases of `BasicValueEnum` the generator
produces. -/
inductive Value (α : Type) where
  | Scalar : α → Value α
  | Matrix : MatrixRec α → Value α
deriving DecidableEq, Repr

/-- The representation (float vs pointer) of a compiled value. -/
def Value.kind {α : Type} : Value α → FunctionReturnType
  | .Scalar _ => .Scalar
  | .Matrix _ => .Matrix

/-- The binding table of `CodeGen` (`variables: HashMap<String,
(PointerValue, BasicTypeEnum)>`).  A slot holds the value stored at bind time;
re-binding conses a fresh entry, and `lookupVar` returns the most recent one,
matching `HashMap::insert` overwrite followed by `get`. -/
abbrev VarTable (α : Type) := List (String × Value α)

/-- Lookup in the binding table, modelling `self.variables.get(name)` plus the
`build_load` of the stored value. -/
def lookupVar {α : Type} (vars : VarTable α) (n : String) : Option (Value α) :=
  alookup vars n

/-- `applyOp op` is the native float operation selected by the `match op` in
the scalar arm of `compile_expr` (`build_float_add` and friends). -/
def applyOp {α : Type} [Add α] [Sub α] [Mul α] [Div α] : Op → α → α → α
  | .Add, a, b => a + b
  | .Subtract, a, b => a - b
  | .Multiply, a, b => a * b
  | .Divide, a, b => a / b

/-- The do-while control flow of the loop emitted by
`CodeGen::compile_matrix_add` (`codegen.rs` lines 289-327): an unconditional
branch enters the loop block; the body runs on index `i` (phi value), the
index is incremented, and the conditional branch re-enters the loop while
`next_i < total`.  The exit test therefore comes after the body.  `step`
is the loop body acting on the loop-carried state. -/
def addLoop {σ : Type} (step : Nat → σ → σ) (total : Nat) (i : Nat) (s : σ) : σ :=
  let s' := step i s
  if i + 1 < total then addLoop step total (i + 1) s' else s'
termination_by total - i
decreasing_by simp_wf; omega

/-- Run-time semantics of the code emitted by `CodeGen::compile_matrix_add`
(`codegen.rs` lines 261-350): `rows` and `cols` are loaded from the left
record only, `total = rows*cols`, a fresh buffer of `total` doubles is
allocated, and the do-while loop stores `lhs.data[i] + rhs.data[i]` at
`dest[i]`.  Out-of-range loads read junk (`default`); an out-of-range
`List.set` is a no-op, standing for a store past the allocation. -/
def matrix_add {α : Type} [Inhabited α] [Add α] (lhs rhs : MatrixRec α) : MatrixRec α :=
  let rows := lhs.rows
  let cols := lhs.cols
  let total := rows * cols
  let res := addLoop
    (fun i buf => buf.set i (lhs.data.getD i default + rhs.data.getD i default))
    total 0 (List.replicate total default)
  ⟨res, rows, cols⟩

mutual

/-- `CodeGen::compile_expr` (`codegen.rs` lines 152-193), with each builder
call interpreted by the run-time value it produces. -/
def compile_expr {α : Type} [Inhabited α] [Add α] [Sub α] [Mul α] [Div α]
    (vars : VarTable α) : Expr α → Except String (Value α)
  | .Number n => .ok (.Scalar n)
  | .Identifier name =>
      match lookupVar vars name with
      | some v => .ok v
      | none => .error ("Variable not found: " ++ name)
  | .BinaryOp left op right =>
      match compile_expr vars left with
      | .error e => .error e
      | .ok lhs =>
        match compile_expr vars right with
        | .error e => .error e
        | .ok rhs =>
          match lhs, rhs with
          | .Scalar a, .Scalar b => .ok (.Scalar (applyOp op a b))
          | .Matrix am, .Matrix bm =>
              match op with
              | .Add => .ok (.Matrix (matrix_add am bm))
              | _ => .error ("Operator " ++ op.debugStr ++ " not supported for matrices yet")
          | _, _ => .error "Type mismatch in binary operation"
  | .MatrixLiteral rows => compile_matrix_literal vars rows
termination_by e => 2 * sizeOf e
decreasing_by all_goals (simp_wf <;> omega)

/-- `CodeGen::compile_matrix_literal` (`codegen.rs` lines 195-259): empty
check on the row list, rectangularity check against `rows[0].len()`, a flat
`rows*cols` buffer (junk-initialized, modelling `build_array_malloc`), then
the populate loop, then the record. -/
def compile_matrix_literal {α : Type} [Inhabited α] [Add α] [Sub α] [Mul α] [Div α]
    (vars : VarTable α) (rows : List (List (Expr α))) : Except String (Value α) :=
  let num_rows := rows.length
  if num_rows = 0 then .error "Empty matrix literal"
  else
    let num_cols := (rows.headD []).length
    if rows.all (fun row => row.length = num_cols) then
      match storeElems vars num_cols rows 0 (List.replicate (num_rows * num_cols) default) with
      | .error e => .error e
      | .ok buf => .ok (.Matrix ⟨buf, num_rows, num_cols⟩)
    else .error "Matrix rows must have same length"
termination_by 2 * sizeOf rows + 1
decreasing_by all_goals (simp_wf <;> omega)

/-- The outer populate loop of `compile_matrix_literal`
(`for (i, row) in rows.iter().enumerate()`), carrying the row index `i` and
the buffer. -/
def storeElems {α : Type} [Inhabited α] [Add α] [Sub α] [Mul α] [Div α]
    (vars : VarTable α) (cols : Nat) :
    List (List (Expr α)) → Nat → List α → Except String (List α)
  | [], _, buf => .ok buf
  | row :: rest, i, buf =>
      match storeRow vars (i * cols) row 0 buf with
      | .error e => .error e
      | .ok buf₁ => storeElems vars cols rest (i + 1) buf₁
termination_by rows i buf => 2 * sizeOf rows
decreasing_by all_goals (simp_wf <;> omega)

/-- The inner populate loop of `compile_matrix_literal`
(`for (j, expr) in row.iter().enumerate()`): compile the element, insist it is
a float, store it at flattened offset `base + j` where `base = i * cols`. -/
def storeRow {α : Type} [Inhabited α] [Add α] [Sub α] [Mul α] [Div α]
    (vars : VarTable α) (base : Nat) :
    List (Expr α) → Nat → List α → Except String (List α)
  | [], _, buf => .ok buf
  | e :: rest, j, buf =>
      match compile_expr vars e with
      | .error msg => .error msg
      | .ok (.Matrix _) => .error "Matrix elements must be numbers"
      | .ok (.Scalar v) => storeRow vars base rest (j + 1) (buf.set (base + j) v)
termination_by row j buf => 2 * sizeOf row
decreasing_by all_goals (simp_wf <;> omega)

end

/-- A compiled function as the execution engine sees it: its symbol name, the
declared return representation chosen in `compile_function` from
`infer_return_type`, and the values whose returns were emitted by the `Return`
arm of `compile_stmt`, in emission order.  At run time control reaches the
first emitted `ret`, so the function's run-time result is `returns.head?`. -/
structure CompiledFunction (α : Type) where
  name : String
  ret_type : FunctionReturnType
  returns : List (Value α)

/-- The statement walk of `compile_function` calling `CodeGen::compile_stmt`
(`codegen.rs` lines 119-136) on each statement: `Let` compiles the expression,
allocates a slot, stores the value and records the binding; `Return` compiles
the expression and emits a return of whatever representation the value has.
Compilation continues past a `Return` (the source loop never stops early). -/
def compile_stmts {α : Type} [Inhabited α] [Add α] [Sub α] [Mul α] [Div α]
    (vars : VarTable α) :
    List (Stmt α) → Except String (VarTable α × List (Value α))
  | [] => .ok (vars, [])
  | .Let name e :: rest =>
      match compile_expr vars e with
      | .error msg => .error msg
      | .ok v => compile_stmts ((name, v) :: vars) rest
  | .Return e :: rest =>
      match compile_expr vars e with
      | .error msg => .error msg
      | .ok v =>
        match compile_stmts vars rest with
        | .error msg => .error msg
        | .ok (vars₁, rets) => .ok (vars₁, v :: rets)

/-- `CodeGen::compile_function` (`codegen.rs` lines 54-82): infer the return
type, declare the function with the corresponding return representation,
clear the binding table, then compile the body statements. -/
def compile_function {α : Type} [Inhabited α] [Add α] [Sub α] [Mul α] [Div α]
    (f : Function α) : Except String (CompiledFunction α) :=
  let return_type := infer_return_type f
  match compile_stmts [] f.body with
  | .error msg => .error msg
  | .ok (_, rets) => .ok ⟨f.name, return_type, rets⟩

/-- The function list traversal of `CodeGen::compile_program`
(`codegen.rs` lines 46-51). -/
def compile_functions {α : Type} [Inhabited α] [Add α] [Sub α] [Mul α] [Div α] :
    List (Function α) → Except String (List (CompiledFunction α))
  | [] => .ok []
  | f :: rest =>
      match compile_function f with
      | .error msg => .error msg
      | .ok cf =>
        match compile_functions rest with
        | .error msg => .error msg
        | .ok cfs => .ok (cf :: cfs)

/-- `CodeGen::compile_program`: compile every function of the program. -/
def compile_program {α : Type} [Inhabited α] [Add α] [Sub α] [Mul α] [Div α]
    (p : Program α) : Except String (List (CompiledFunction α)) :=
  compile_functions p.functions

namespace Jit

/-- `Jit::run` (`jit.rs` lines 22-31): look up the named function in the
compiled module and call it through an `unsafe extern fn() -> f64` signature.
If the function actually returns a scalar, the caller receives it; if it
returns a matrix pointer, or falls off the end without a `ret`, the double
read from the return register is unspecified, modelled by `default` junk. -/
def run {α : Type} [Inhabited α] (compiled : List (CompiledFunction α))
    (function_name : String) : Except String α :=
  match compiled.find? (fun f => f.name = function_name) with
  | none => .error ("Function " ++ function_name ++ " not found in JIT")
  | some f =>
    match f.returns.head? with
    | some (.Scalar x) => .ok x
    | some (.Matrix _) => .ok default
    | none => .ok default

end Jit

mutual

/-- `Parser::parse_expr` (`parser.rs` lines 116-135): a term followed by the
`+`/`-` continuation loop. -/
def parse_expr {α : Type} : Nat → List (Token α) → Except String (Expr α × List (Token α))
  | 0, _ => .error "Parser fuel exhausted"
  | n + 1, ts =>
      match parse_term n ts with
      | .error e => .error e
      | .ok (left, ts₁) => parse_expr_tail n left ts₁

/-- The `while let Some(token) = self.peek()` loop of `parse_expr`: as long as
the next token is `+` or `-`, parse another term and left-nest the result. -/
def parse_expr_tail {α : Type} :
    Nat → Expr α → List (Token α) → Except String (Expr α × List (Token α))
  | 0, _, _ => .error "Parser fuel exhausted"
  | n + 1, left, .Plus :: ts =>
      match parse_term n ts with
      | .error e => .error e
      | .ok (right, ts₁) => parse_expr_tail n (.BinaryOp left .Add right) ts₁
  | n + 1, left, .Minus :: ts =>
      match parse_term n ts with
      | .error e => .error e
      | .ok (right, ts₁) => parse_expr_tail n (.BinaryOp left .Subtract right) ts₁
  | _ + 1, left, ts => .ok (left, ts)

/-- `Parser::parse_term` (`parser.rs` lines 138-157): a factor followed by the
`*`/`/` continuation loop. -/
def parse_term {α : Type} : Nat → List (Token α) → Except String (Expr α × List (Token α))
  | 0, _ => .error "Parser fuel exhausted"
  | n + 1, ts =>
      match parse_factor n ts with
      | .error e => .error e
      | .ok (left, ts₁) => parse_term_tail n left ts₁

/-- The continuation loop of `parse_term`: as long as the next token is `*` or
`/`, parse another factor and left-nest the result. -/
def parse_term_tail {α : Type} :
    Nat → Expr α → List (Token α) → Except String (Expr α × List (Token α))
  | 0, _, _ => .error "Parser fuel exhausted"
  | n + 1, left, .Star :: ts =>
      match parse_factor n ts with
      | .error e => .error e
      | .ok (right, ts₁) => parse_term_tail n (.BinaryOp left .Multiply right) ts₁
  | n + 1, left, .Slash :: ts =>
      match parse_factor n ts with
      | .error e => .error e
      | .ok (right, ts₁) => parse_term_tail n (.BinaryOp left .Divide right) ts₁
  | _ + 1, left, ts => .ok (left, ts)

/-- `Parser::parse_factor` (`parser.rs` lines 160-230): number, identifier,
parenthesized expression, or matrix literal.  After `[`, a peeked `[` selects
the nested (list of rows) form, anything else the flat one-row form. -/
def parse_factor {α : Type} : Nat → List (Token α) → Except String (Expr α × List (Token α))
  | 0, _ => .error "Parser fuel exhausted"
  | n + 1, ts =>
      match ts with
      | .Number x :: ts₁ => .ok (.Number x, ts₁)
      | .Identifier name :: ts₁ => .ok (.Identifier name, ts₁)
      | .LParen :: ts₁ =>
          match parse_expr n ts₁ with
          | .error e => .error e
          | .ok (e, ts₂) =>
            match ts₂ with
            | .RParen :: ts₃ => .ok (e, ts₃)
            | _ => .error "Expected RParen"
      | .LBracket :: ts₁ =>
          match ts₁ with
          | .LBracket :: _ =>
              match parse_rows n ts₁ with
              | .error e => .error e
              | .ok (rows, ts₂) =>
                match ts₂ with
                | .RBracket :: ts₃ => .ok (.MatrixLiteral rows, ts₃)
                | _ => .error "Expected RBracket"
          | _ =>
              match parse_row_elems n ts₁ with
              | .error e => .error e
              | .ok (row, ts₂) =>
                match ts₂ with
                | .RBracket :: ts₃ => .ok (.MatrixLiteral [row], ts₃)
                | _ => .error "Expected RBracket"
      | _ => .error "Expected factor"

/-- The `while let Some(Token::LBracket) = self.peek()` loop in the nested
branch of `parse_factor`: consume `[`, parse a row, expect `]`, push the row,
and continue only when a comma followed by another `[` is next. -/
def parse_rows {α : Type} :
    Nat → List (Token α) → Except String (List (List (Expr α)) × List (Token α))
  | 0, _ => .error "Parser fuel exhausted"
  | n + 1, .LBracket :: ts =>
      match parse_row_elems n ts with
      | .error e => .error e
      | .ok (row, ts₁) =>
        match ts₁ with
        | .RBracket :: ts₂ =>
          match ts₂ with
          | .Comma :: ts₃ =>
            match ts₃ with
            | .LBracket :: _ =>
                match parse_rows n ts₃ with
                | .error e => .error e
                | .ok (rows, ts₄) => .ok (row :: rows, ts₄)
            | _ => .ok ([row], ts₃)
          | _ => .ok ([row], ts₂)
        | _ => .error "Expected RBracket"
  | _ + 1, ts => .ok ([], ts)

/-- The `while !matches!(self.peek(), Some(Token::RBracket))` loop parsing the
elements of one row: parse an expression, then continue only after a comma.
On an empty rest the loop body runs and `parse_expr` fails, as in the source
where `parse_factor` reports the missing token. -/
def parse_row_elems {α : Type} :
    Nat → List (Token α) → Except String (List (Expr α) × List (Token α))
  | 0, _ => .error "Parser fuel exhausted"
  | n + 1, ts =>
      match ts with
      | .RBracket :: _ => .ok ([], ts)
      | _ =>
          match parse_expr n ts with
          | .error e => .error e
          | .ok (e, ts₁) =>
            match ts₁ with
            | .Comma :: ts₂ =>
                match parse_row_elems n ts₂ with
                | .error er => .error er
                | .ok (row, ts₃) => .ok (e :: row, ts₃)
            | _ => .ok ([e], ts₁)

end

/-- `Parser::parse_stmt` (`parser.rs` lines 92-113). -/
def parse_stmt {α : Type} : Nat → List (Token α) → Except String (Stmt α × List (Token α))
  | 0, _ => .error "Parser fuel exhausted"
  | n + 1, .Let :: ts =>
      match ts with
      | .Identifier name :: .Assign :: ts₁ =>
          match parse_expr n ts₁ with
          | .error e => .error e
          | .ok (e, ts₂) =>
            match ts₂ with
            | .SemiColon :: ts₃ => .ok (.Let name e, ts₃)
            | _ => .error "Expected SemiColon"
      | .Identifier _ :: _ => .error "Expected Assign"
      | _ => .error "Expected variable name"
  | n + 1, .Return :: ts =>
      match parse_expr n ts with
      | .error e => .error e
      | .ok (e, ts₁) =>
        match ts₁ with
        | .SemiColon :: ts₂ => .ok (.Return e, ts₂)
        | _ => .error "Expected SemiColon"
  | _ + 1, _ => .error "Expected statement"

/-- The `while let Some(token) = self.peek()` body loop of `parse_function`:
statements until `}` (or end of input, which the enclosing `expect` then
rejects). -/
def parse_stmts {α : Type} :
    Nat → List (Token α) → Except String (List (Stmt α) × List (Token α))
  | 0, _ => .error "Parser fuel exhausted"
  | _ + 1, [] => .ok ([], [])
  | _ + 1, .RBrace :: ts => .ok ([], .RBrace :: ts)
  | n + 1, ts =>
      match parse_stmt n ts with
      | .error e => .error e
      | .ok (s, ts₁) =>
        match parse_stmts n ts₁ with
        | .error e => .error e
        | .ok (ss, ts₂) => .ok (s :: ss, ts₂)

/-- `Parser::parse_function` (`parser.rs` lines 69-89): `fn name ( ) {`
followed by the body statements and `}`. -/
def parse_function {α : Type} :
    Nat → List (Token α) → Except String (Function α × List (Token α))
  | 0, _ => .error "Parser fuel exhausted"
  | n + 1, .Fn :: .Identifier name :: .LParen :: .RParen :: .LBrace :: ts =>
      match parse_stmts n ts with
      | .error e => .error e
      | .ok (body, ts₁) =>
        match ts₁ with
        | .RBrace :: ts₂ => .ok (⟨name, body⟩, ts₂)
        | _ => .error "Expected RBrace"
  | _ + 1, _ => .error "Expected function header"

/-- `Parser::parse_program` (`parser.rs` lines 60-66): functions until the
token sequence is exhausted. -/
def parse_program {α : Type} : Nat → List (Token α) → Except String (Program α)
  | 0, _ => .error "Parser fuel exhausted"
  | _ + 1, [] => .ok ⟨[]⟩
  | n + 1, ts =>
      match parse_function n ts with
      | .error e => .error e
      | .ok (f, ts₁) =>
        match parse_program n ts₁ with
        | .error e => .error e
        | .ok p => .ok ⟨f :: p.functions⟩

/-- Tokens an `EXPR` may use under the scalar fragment of the language:
numeric literals, the four operators, and parentheses. -/
def isScalarTok {α : Type} : Token α → Bool
  | .Number _ => true
  | .Plus => true
  | .Minus => true
  | .Star => true
  | .Slash => true
  | .LParen => true
  | .RParen => true
  | _ => false

/-- The continuation token lists head position check: a token list whose head
is none of `+ - * /` cannot extend an expression or a term. -/
def noCont {α : Type} : List (Token α) → Bool
  | [] => true
  | .Plus :: _ => false
  | .Minus :: _ => false
  | .Star :: _ => false
  | .Slash :: _ => false
  | _ :: _ => true

mutual

/-- Modelled from the spec: the reference semantics of scalar expressions
(spec sections 4.2 and 8), namely the EBNF
`Expr := Term (('+'|'-') Term)*`, `Term := Factor (('*'|'/') Factor)*`,
`Factor := Number | '(' Expr ')'`, evaluated left-associatively with `*`/`/`
binding tighter than `+`/`-` and parentheses overriding.  This definition
follows the spec's words, not the source, and is the comparison point for the
pipeline theorem of claim C1. -/
def specEvalExpr {α : Type} [Add α] [Sub α] [Mul α] [Div α] :
    Nat → List (Token α) → Except String (α × List (Token α))
  | 0, _ => .error "Evaluator fuel exhausted"
  | n + 1, ts =>
      match specEvalTerm n ts with
      | .error e => .error e
      | .ok (v, ts₁) => specEvalExprTail n v ts₁

/-- Modelled from the spec: the left-associative `(('+'|'-') Term)*`
continuation of `specEvalExpr`. -/
def specEvalExprTail {α : Type} [Add α] [Sub α] [Mul α] [Div α] :
    Nat → α → List (Token α) → Except String (α × List (Token α))
  | 0, _, _ => .error "Evaluator fuel exhausted"
  | n + 1, v, .Plus :: ts =>
      match specEvalTerm n ts with
      | .error e => .error e
      | .ok (w, ts₁) => specEvalExprTail n (v + w) ts₁
  | n + 1, v, .Minus :: ts =>
      match specEvalTerm n ts with
      | .error e => .error e
      | .ok (w, ts₁) => specEvalExprTail n (v - w) ts₁
  | _ + 1, v, ts => .ok (v, ts)

/-- Modelled from the spec: `Term := Factor (('*'|'/') Factor)*`. -/
def specEvalTerm {α : Type} [Add α] [Sub α] [Mul α] [Div α] :
    Nat → List (Token α) → Except String (α × List (Token α))
  | 0, _ => .error "Evaluator fuel exhausted"
  | n + 1, ts =>
      match specEvalFactor n ts with
      | .error e => .error e
      | .ok (v, ts₁) => specEvalTermTail n v ts₁

/-- Modelled from the spec: the left-associative `(('*'|'/') Factor)*`
continuation of `specEvalTerm`. -/
def specEvalTermTail {α : Type} [Add α] [Sub α] [Mul α] [Div α] :
    Nat → α → List (Token α) → Except String (α × List (Token α))
  | 0, _, _ => .error "Evaluator fuel exhausted"
  | n + 1, v, .Star :: ts =>
      match specEvalFactor n ts with
      | .error e => .error e
      | .ok (w, ts₁) => specEvalTermTail n (v * w) ts₁
  | n + 1, v, .Slash :: ts =>
      match specEvalFactor n ts with
      | .error e => .error e
      | .ok (w, ts₁) => specEvalTermTail n (v / w) ts₁
  | _ + 1, v, ts => .ok (v, ts)

/-- Modelled from the spec: `Factor := Number | '(' Expr ')'` in the scalar
fragment of claim C1 (no identifiers, no matrix literals). -/
def specEvalFactor {α : Type} [Add α] [Sub α] [Mul α] [Div α] :
    Nat → List (Token α) → Except String (α × List (Token α))
  | 0, _ => .error "Evaluator fuel exhausted"
  | n + 1, ts =>
      match ts with
      | .Number x :: ts₁ => .ok (x, ts₁)
      | .LParen :: ts₁ =>
          match specEvalExpr n ts₁ with
          | .error e => .error e
          | .ok (v, ts₂) =>
            match ts₂ with
            | .RParen :: ts₃ => .ok (v, ts₃)
            | _ => .error "Expected RParen"
      | _ => .error "Expected factor"

end

/-- The token sequence of the source program `fn main(){ return EXPR; }` where
`ts` is the token sequence of `EXPR`. -/
def mainTokens {α : Type} (ts : List (Token α)) : List (Token α) :=
  .Fn :: .Identifier "main" :: .LParen :: .RParen :: .LBrace :: .Return ::
    (ts ++ [.SemiColon, .RBrace])

/-- Modelled from the spec: `kind(expr)` of spec section 4.3, with the
name-to-kind mapping as a total function defaulting to Scalar for unbound
names.  This definition follows the spec's words and is the comparison point
for claim C6. -/
def kindSpec {α : Type} (env : String → FunctionReturnType) :
    Expr α → FunctionReturnType
  | .Number _ => .Scalar
  | .MatrixLiteral _ => .Matrix
  | .Identifier name => env name
  | .BinaryOp l _ r =>
      if kindSpec env l = .Matrix ∨ kindSpec env r = .Matrix then .Matrix else .Scalar

/-- Modelled from the spec: the statement walk of spec section 4.3 — bind each
`Let`, answer `kind(expr)` at the first `Return`, default Scalar. -/
def inferSpecWalk {α : Type} (env : String → FunctionReturnType) :
    List (Stmt α) → FunctionReturnType
  | [] => .Scalar
  | .Let name e :: rest =>
      inferSpecWalk (fun m => if m = name then kindSpec env e else env m) rest
  | .Return e :: _ => kindSpec env e

/-- Modelled from the spec: the reference definition of return-kind inference
stated in claim C6, starting from the all-Scalar environment. -/
def infer_return_type_spec {α : Type} (f : Function α) : FunctionReturnType :=
  inferSpecWalk (fun _ => .Scalar) f.body

/-- C8: on two matrix operands only `Add` is generated; `Subtract`, `Multiply`
or `Divide` on two matrices fails code generation with the operator-not-
supported error, and a scalar-matrix mix fails with the type-mismatch error
for every operator. -/
theorem c8_binary_op_operand_restrictions {α : Type} [Inhabited α] [Add α] [Sub α] [Mul α]
    [Div α] (vars : VarTable α) (l r : Expr α) (op : Op) :
    (∀ A B, compile_expr vars l = .ok (.Matrix A) → compile_expr vars r = .ok (.Matrix B) →
      op ≠ .Add →
      compile_expr vars (.BinaryOp l op r) =
        .error ("Operator " ++ op.debugStr ++ " not supported for matrices yet"))
    ∧ (∀ a B, compile_expr vars l = .ok (.Scalar a) → compile_expr vars r = .ok (.Matrix B) →
      compile_expr vars (.BinaryOp l op r) = .error "Type mismatch in binary operation")
    ∧ (∀ A b, compile_expr vars l = .ok (.Matrix A) → compile_expr vars r = .ok (.Scalar b) →
      compile_expr vars (.BinaryOp l op r) = .error "Type mismatch in binary operation") := by
  refine ⟨?_, ?_, ?_⟩
  · intro A B hl hr hop
    cases op <;> simp [compile_expr, hl, hr] <;> simp_all
  · intro a B hl hr
    simp [compile_expr, hl, hr]
  · intro A b hl hr
    simp [compile_expr, hl, hr]

/-- C8 witness: `[[1]] - [[2]]` is rejected with the operator message, and
`1 + [[2]]`, `[[1]] + 2` are rejected as type mismatches. -/
theorem c8_binary_op_operand_restrictions_witness :
    compile_expr ([] : VarTable ℤ)
      (.BinaryOp (.MatrixLiteral [[.Number 1]]) .Subtract (.MatrixLiteral [[.Number 2]])) =
      .error "Operator Subtract not supported for matrices yet"
    ∧ compile_expr ([] : VarTable ℤ)
      (.BinaryOp (.Number 1) .Add (.MatrixLiteral [[.Number 2]])) =
      .error "Type mismatch in binary operation"
    ∧ compile_expr ([] : VarTable ℤ)
      (.BinaryOp (.MatrixLiteral [[.Number 1]]) .Divide (.Number 2)) =
      .error "Type mismatch in binary operation" := by
  have h1 : compile_expr ([] : VarTable ℤ) (.MatrixLiteral [[.Number 1]]) =
      .ok (.Matrix ⟨[1], 1, 1⟩) := by
    simp [compile_expr, compile_matrix_literal, storeElems, storeRow]
  have h2 : compile_expr ([] : VarTable ℤ) (.MatrixLiteral [[.Number 2]]) =
      .ok (.Matrix ⟨[2], 1, 1⟩) := by
    simp [compile_expr, compile_matrix_literal, storeElems, storeRow]
  have h3 : compile_expr ([] : VarTable ℤ) (.Number 1) = .ok (.Scalar 1) := by
    simp [compile_expr]
  have h4 : compile_expr ([] : VarTable ℤ) (.Number 2) = .ok (.Scalar 2) := by
    simp [compile_expr]
  refine ⟨?_, ?_, ?_⟩
  · exact (c8_binary_op_operand_restrictions [] _ _ .Subtract).1 _ _ h1 h2 (by decide)
  · exact (c8_binary_op_operand_restrictions [] _ _ .Add).2.1 _ _ h3 h2
  · exact (c8_binary_op_operand_restrictions [] _ _ .Divide).2.2 _ _ h1 h4

/-- C9: a matrix literal whose rows do not all share the first row's length is
rejected with the "rows must have same length" error, before any element
expression is compiled (the error holds for arbitrary element expressions,
including ones whose own compilation would fail). -/
theorem c9_ragged_literal_rejected {α : Type} [Inhabited α] [Add α] [Sub α] [Mul α] [Div α]
    (vars : VarTable α) (rows : List (List (Expr α)))
    (hne : rows ≠ [])
    (hragged : ∃ row ∈ rows, row.length ≠ (rows.headD []).length) :
    compile_matrix_literal vars rows = .error "Matrix rows must have same length" := by
  obtain ⟨row, hmem, hlen⟩ := hragged
  have hnz : rows.length ≠ 0 := fun h => hne (List.length_eq_zero.mp h)
  simp only [compile_matrix_literal, hnz, if_false]
  simp only [List.all_eq_true, decide_eq_true_eq, ite_eq_right_iff]
  intro hc
  exact absurd (hc row hmem) (by simpa using hlen)

/-- C9 witness: the spec's example `[[1.0, 2.0], [3.0]]`. -/
theorem c9_ragged_literal_rejected_witness :
    compile_matrix_literal ([] : VarTable ℤ)
      [[.Number 1, .Number 2], [.Number 3]] =
      .error "Matrix rows must have same length" := by
  exact c9_ragged_literal_rejected [] _ (by simp)
    ⟨[.Number 3], by simp, by simp⟩

/-- C4 counterexample: the source forms `[]` and `[[]]` both parse to a
one-empty-row literal `MatrixLiteral [[]]`, and code generation of that
expression succeeds with a 1×0 matrix record instead of failing. -/
theorem c4_empty_literal_counterexample :
    parse_factor 3 ([.LBracket, .RBracket] : List (Token ℤ)) =
      .ok (.MatrixLiteral [[]], [])
    ∧ parse_factor 4 ([.LBracket, .LBracket, .RBracket, .RBracket] : List (Token ℤ)) =
      .ok (.MatrixLiteral [[]], [])
    ∧ compile_expr ([] : VarTable ℤ) (.MatrixLiteral [[]]) =
      .ok (.Matrix ⟨[], 1, 0⟩) := by
  refine ⟨?_, ?_, ?_⟩
  · simp [parse_factor, parse_row_elems]
  · simp [parse_factor, parse_rows, parse_row_elems]
  · simp [compile_expr, compile_matrix_literal, storeElems, storeRow]

/-- C4 amended: code generation fails with the "Empty matrix literal" error
exactly for a literal whose row list is empty — a shape the parser never
produces.  The source-level empty literals `[]` and `[[]]` parse to a single
empty row and compile successfully to a record with `rows = 1`, `cols = 0`
and an empty data buffer. -/
theorem c4_empty_literal_amended {α : Type} [Inhabited α] [Add α] [Sub α] [Mul α] [Div α] :
    (∀ vars : VarTable α, compile_matrix_literal vars [] = .error "Empty matrix literal")
    ∧ (∀ vars : VarTable α, compile_matrix_literal vars [[]] = .ok (.Matrix ⟨[], 1, 0⟩))
    ∧ parse_factor 3 ([.LBracket, .RBracket] : List (Token ℤ)) =
      .ok (.MatrixLiteral [[]], [])
    ∧ parse_factor 4 ([.LBracket, .LBracket, .RBracket, .RBracket] : List (Token ℤ)) =
      .ok (.MatrixLiteral [[]], []) := by
  refine ⟨?_, ?_, ?_, ?_⟩
  · intro vars; simp [compile_matrix_literal]
  · intro vars; simp [compile_matrix_literal, storeElems, storeRow]
  · simp [parse_factor, parse_row_elems]
  · simp [parse_factor, parse_rows, parse_row_elems]

theorem infer_eq_kindSpec {α : Type} (locals : KindTable) (env : String → FunctionReturnType)
    (h : ∀ n, (lookupKind locals n).getD .Scalar = env n) :
    ∀ e : Expr α, infer_expr_type locals e = kindSpec env e
  | .Number _ => rfl
  | .MatrixLiteral _ => rfl
  | .Identifier name => by
      simp only [infer_expr_type, kindSpec]
      exact h name
  | .BinaryOp l op r => by
      have hl := infer_eq_kindSpec locals env h l
      have hr := infer_eq_kindSpec locals env h r
      simp only [infer_expr_type, kindSpec, hl, hr]

theorem inferWalk_eq_spec {α : Type} :
    ∀ (body : List (Stmt α)) (locals : KindTable) (env : String → FunctionReturnType),
      (∀ n, (lookupKind locals n).getD .Scalar = env n) →
      inferWalk locals body = inferSpecWalk env body
  | [], _, _, _ => rfl
  | .Let name e :: rest, locals, env, h => by
      simp only [inferWalk, inferSpecWalk]
      apply inferWalk_eq_spec rest
      intro n
      by_cases hn : n = name
      · subst hn
        simp [lookupKind, alookup, infer_eq_kindSpec locals env h e]
      · have hne : ¬name = n := fun hq => hn hq.symm
        simpa [lookupKind, alookup, hne, hn] using h n
  | .Return e :: _, locals, env, h => by
      simp only [inferWalk, inferSpecWalk]
      exact infer_eq_kindSpec locals env h e

/-- C6: `infer_return_type` coincides with the reference definition built
from the spec's words (`infer_return_type_spec`); in particular a function
returning an identifier let-bound to a matrix literal is classified Matrix,
and one returning a bare numeric literal is classified Scalar. -/
theorem c6_infer_return_type_matches_reference {α : Type} (a : α) :
    (∀ f : Function α, infer_return_type f = infer_return_type_spec f)
    ∧ infer_return_type (⟨"m", [.Let "x" (.MatrixLiteral [[.Number a]]),
        .Return (.Identifier "x")]⟩ : Function α) = .Matrix
    ∧ infer_return_type (⟨"s", [.Return (.Number a)]⟩ : Function α) = .Scalar := by
  refine ⟨fun f => inferWalk_eq_spec f.body [] (fun _ => .Scalar) (fun _ => rfl), ?_, rfl⟩
  simp [infer_return_type, inferWalk, infer_expr_type, lookupKind, alookup]

/-- Occurrence of an identifier in an expression, in any expression position
(operands of binary operations and matrix literal elements included). -/
inductive OccursIn {α : Type} (n : String) : Expr α → Prop where
  | ident : OccursIn n (.Identifier n)
  | binl {l r : Expr α} {op : Op} : OccursIn n l → OccursIn n (.BinaryOp l op r)
  | binr {l r : Expr α} {op : Op} : OccursIn n r → OccursIn n (.BinaryOp l op r)
  | mat {rows : List (List (Expr α))} {row : List (Expr α)} {e : Expr α} :
      row ∈ rows → e ∈ row → OccursIn n e → OccursIn n (.MatrixLiteral rows)

theorem storeRow_ok_elem {α : Type} [Inhabited α] [Add α] [Sub α] [Mul α] [Div α]
    {vars : VarTable α} {base : Nat} :
    ∀ {row : List (Expr α)} {j : Nat} {buf buf₂ : List α},
      storeRow vars base row j buf = .ok buf₂ →
      ∀ e ∈ row, ∃ v, compile_expr vars e = .ok (.Scalar v) := by
  intro row
  induction row with
  | nil => intro j buf buf₂ h e he; simp at he
  | cons e₀ rest ih =>
    intro j buf buf₂ h e he
    simp only [storeRow] at h
    cases hc : compile_expr vars e₀ with
    | error msg => simp [hc] at h
    | ok v =>
      cases v with
      | Matrix m => simp [hc] at h
      | Scalar x =>
        simp only [hc] at h
        rcases List.mem_cons.mp he with rfl | hmem
        · exact ⟨x, hc⟩
        · exact ih h e hmem

theorem storeElems_ok_elem {α : Type} [Inhabited α] [Add α] [Sub α] [Mul α] [Div α]
    {vars : VarTable α} {cols : Nat} :
    ∀ {rows : List (List (Expr α))} {i : Nat} {buf buf₂ : List α},
      storeElems vars cols rows i buf = .ok buf₂ →
      ∀ row ∈ rows, ∀ e ∈ row, ∃ v, compile_expr vars e = .ok (.Scalar v) := by
  intro rows
  induction rows with
  | nil => intro i buf buf₂ h row hrow; simp at hrow
  | cons row₀ rest ih =>
    intro i buf buf₂ h row hrow e he
    simp only [storeElems] at h
    cases hr : storeRow vars (i * cols) row₀ 0 buf with
    | error msg => simp [hr] at h
    | ok buf₁ =>
      simp only [hr] at h
      rcases List.mem_cons.mp hrow with rfl | hmem
      · exact storeRow_ok_elem hr e he
      · exact ih h row hmem e he

theorem compile_matrix_literal_ok_elem {α : Type} [Inhabited α] [Add α] [Sub α] [Mul α]
    [Div α] {vars : VarTable α} {rows : List (List (Expr α))} {v : Value α}
    (h : compile_matrix_literal vars rows = .ok v) :
    ∀ row ∈ rows, ∀ e ∈ row, ∃ x, compile_expr vars e = .ok (.Scalar x) := by
  simp only [compile_matrix_literal] at h
  split at h
  · simp at h
  · split at h
    · split at h
      · simp at h
      · rename_i heq
        exact storeElems_ok_elem heq
    · simp at h

theorem compile_matrix_literal_ok_shape {α : Type} [Inhabited α] [Add α] [Sub α] [Mul α]
    [Div α] {vars : VarTable α} {rows : List (List (Expr α))} {v : Value α}
    (h : compile_matrix_literal vars rows = .ok v) :
    ∃ rec : MatrixRec α, v = .Matrix rec := by
  simp only [compile_matrix_literal] at h
  split at h
  · simp at h
  · split at h
    · split at h
      · simp at h
      · injection h with h2
        exact ⟨_, h2.symm⟩
    · simp at h

/-- C7: in every expression position the code generator turns an unbound
identifier into the fatal "Variable not found" error; a compiled expression
that succeeds can only mention bound names, and the generator never silently
substitutes a default value — unlike inference, which maps the same unbound
name to Scalar. -/
theorem c7_unbound_identifier_is_fatal {α : Type} [Inhabited α] [Add α] [Sub α] [Mul α]
    [Div α] :
    (∀ (vars : VarTable α) name, lookupVar vars name = none →
        compile_expr vars (.Identifier name) = .error ("Variable not found: " ++ name))
    ∧ (∀ (locals : KindTable) name, lookupKind locals name = none →
        infer_expr_type (α := α) locals (.Identifier name) = .Scalar)
    ∧ (∀ (vars : VarTable α) (e : Expr α) v name, compile_expr vars e = .ok v →
        OccursIn name e → ∃ w, lookupVar vars name = some w) := by
  refine ⟨?_, ?_, ?_⟩
  · intro vars name h
    simp [compile_expr, h]
  · intro locals name h
    simp [infer_expr_type, h]
  · intro vars e v name hok hocc
    induction hocc generalizing v with
    | ident =>
      cases hl : lookupVar vars name with
      | some w => exact ⟨w, rfl⟩
      | none => simp [compile_expr, hl] at hok
    | @binl l r op hsub ih =>
      simp only [compile_expr] at hok
      cases hcl : compile_expr vars l with
      | error m => rw [hcl] at hok; simp at hok
      | ok lv => exact ih lv hcl
    | @binr l r op hsub ih =>
      simp only [compile_expr] at hok
      cases hcl : compile_expr vars l with
      | error m => rw [hcl] at hok; simp at hok
      | ok lv =>
        rw [hcl] at hok
        cases hcr : compile_expr vars r with
        | error m => rw [hcr] at hok; simp at hok
        | ok rv => exact ih rv hcr
    | mat hrow he hsub ih =>
      simp only [compile_expr] at hok
      obtain ⟨x, hx⟩ := compile_matrix_literal_ok_elem hok _ hrow _ he
      exact ih _ hx

/-- C7 witness: compiling `y` with only `x` bound fails with the exact error,
while inference classifies the same unbound `y` as Scalar. -/
theorem c7_unbound_identifier_is_fatal_witness :
    compile_expr ([("x", .Scalar 1)] : VarTable ℤ) (.Identifier "y") =
      .error "Variable not found: y"
    ∧ infer_expr_type (α := ℤ) [("x", .Scalar)] (.Identifier "y") = .Scalar := by
  constructor
  · exact (c7_unbound_identifier_is_fatal (α := ℤ)).1 _ "y" (by simp [lookupVar, alookup])
  · exact (c7_unbound_identifier_is_fatal (α := ℤ)).2.1 [("x", .Scalar)] "y"
      (by simp [lookupKind, alookup])

/-- Agreement between the codegen binding table and the inference table: every
bound name's stored representation is exactly its inferred kind, and the two
tables bind the same names. -/
def TablesAgree {α : Type} (vars : VarTable α) (locals : KindTable) : Prop :=
  ∀ n, (lookupVar vars n).map Value.kind = lookupKind locals n

theorem compile_expr_kind {α : Type} [Inhabited α] [Add α] [Sub α] [Mul α] [Div α] :
    ∀ (e : Expr α) (vars : VarTable α) (locals : KindTable) (v : Value α),
      TablesAgree vars locals → compile_expr vars e = .ok v →
      infer_expr_type locals e = v.kind
  | .Number _, _, _, v, _, hok => by
    simp only [compile_expr] at hok
    injection hok with h
    subst h
    rfl
  | .Identifier name, vars, locals, v, hag, hok => by
    simp only [compile_expr] at hok
    cases hl : lookupVar vars name with
    | none => rw [hl] at hok; simp at hok
    | some w =>
      rw [hl] at hok
      injection hok with h
      subst h
      have hn := hag name
      rw [hl] at hn
      simp only [infer_expr_type, lookupKind] at *
      rw [← hn]
      rfl
  | .MatrixLiteral rows, vars, locals, v, _, hok => by
    simp only [compile_expr] at hok
    obtain ⟨rec, rfl⟩ := compile_matrix_literal_ok_shape hok
    rfl
  | .BinaryOp l op r, vars, locals, v, hag, hok => by
    simp only [compile_expr] at hok
    cases hcl : compile_expr vars l with
    | error m => rw [hcl] at hok; simp at hok
    | ok lv =>
      rw [hcl] at hok
      cases hcr : compile_expr vars r with
      | error m => rw [hcr] at hok; simp at hok
      | ok rv =>
        rw [hcr] at hok
        have hl := compile_expr_kind l vars locals lv hag hcl
        have hr := compile_expr_kind r vars locals rv hag hcr
        cases lv with
        | Scalar a =>
          cases rv with
          | Scalar b =>
            injection hok with h
            subst h
            simp [infer_expr_type, hl, hr, Value.kind]
          | Matrix bm => simp at hok
        | Matrix am =>
          cases rv with
          | Scalar b => simp at hok
          | Matrix bm =>
            cases op with
            | Add =>
              injection hok with h
              subst h
              simp [infer_expr_type, hl, hr, Value.kind]
            | Subtract => simp at hok
            | Multiply => simp at hok
            | Divide => simp at hok

theorem compile_stmts_first_return_kind {α : Type} [Inhabited α] [Add α] [Sub α] [Mul α]
    [Div α] :
    ∀ (body : List (Stmt α)) (vars : VarTable α) (locals : KindTable)
      (vars₁ : VarTable α) (rets : List (Value α)),
      TablesAgree vars locals → compile_stmts vars body = .ok (vars₁, rets) →
      ∀ v, rets.head? = some v → v.kind = inferWalk locals body
  | [], vars, locals, vars₁, rets, _, h, v, hv => by
    simp only [compile_stmts] at h
    injection h with h2
    obtain ⟨-, rfl⟩ := Prod.mk.injEq .. ▸ Prod.mk.inj h2
    simp at hv
  | .Let name e :: rest, vars, locals, vars₁, rets, hag, h, v, hv => by
    simp only [compile_stmts] at h
    cases hc : compile_expr vars e with
    | error m => rw [hc] at h; simp at h
    | ok v₀ =>
      rw [hc] at h
      have hag₂ : TablesAgree ((name, v₀) :: vars)
          ((name, infer_expr_type locals e) :: locals) := by
        intro n
        by_cases hn : name = n
        · subst hn
          simp [lookupVar, lookupKind, alookup,
            compile_expr_kind e vars locals v₀ hag hc]
        · simpa [lookupVar, lookupKind, alookup, hn] using hag n
      simpa only [inferWalk] using
        compile_stmts_first_return_kind rest _ _ vars₁ rets hag₂ h v hv
  | .Return e :: rest, vars, locals, vars₁, rets, hag, h, v, hv => by
    simp only [compile_stmts] at h
    cases hc : compile_expr vars e with
    | error m => rw [hc] at h; simp at h
    | ok v₀ =>
      rw [hc] at h
      cases hrest : compile_stmts vars rest with
      | error m => rw [hrest] at h; simp at h
      | ok p =>
        obtain ⟨vars₂, rets₂⟩ := p
        rw [hrest] at h
        injection h with h2
        obtain ⟨-, rfl⟩ := Prod.mk.injEq .. ▸ Prod.mk.inj h2
        simp only [List.head?_cons, Option.some.injEq] at hv
        simp only [inferWalk]
        rw [compile_expr_kind e vars locals v₀ hag hc, hv]

/-- C5 amended: in every function whose code generation succeeds, the value
emitted at the first return instruction — the one run-time control reaches —
has the representation declared for the function, which was chosen from
`infer_return_type` on the same body; the agreement holds by construction
with no check.  (Returns after the first, possible only in bodies with
several `return` statements, may mismatch; see the counterexample.) -/
theorem c5_first_return_matches_declared {α : Type} [Inhabited α] [Add α] [Sub α] [Mul α]
    [Div α] (f : Function α) (cf : CompiledFunction α)
    (h : compile_function f = .ok cf) :
    cf.ret_type = infer_return_type f
    ∧ ∀ v, cf.returns.head? = some v → v.kind = cf.ret_type := by
  simp only [compile_function] at h
  cases hc : compile_stmts ([] : VarTable α) f.body with
  | error m => rw [hc] at h; simp at h
  | ok p =>
    obtain ⟨vars₁, rets⟩ := p
    rw [hc] at h
    injection h with h2
    subst h2
    refine ⟨rfl, ?_⟩
    intro v hv
    exact compile_stmts_first_return_kind f.body [] [] vars₁ rets
      (fun _ => rfl) hc v hv

/-- C5 witness: `fn main(){ return 1; }` compiles with declared kind Scalar
and its only return carries a scalar. -/
theorem c5_first_return_matches_declared_witness :
    compile_function (⟨"main", [.Return (.Number (1 : ℤ))]⟩ : Function ℤ) =
      .ok ⟨"main", .Scalar, [.Scalar 1]⟩
    ∧ (Value.Scalar (1 : ℤ)).kind = FunctionReturnType.Scalar := by
  have h : compile_function (⟨"main", [.Return (.Number (1 : ℤ))]⟩ : Function ℤ) =
      .ok ⟨"main", .Scalar, [.Scalar 1]⟩ := by
    simp [compile_function, compile_stmts, compile_expr, infer_return_type, inferWalk,
      infer_expr_type]
  exact ⟨h, ((c5_first_return_matches_declared _ _ h).2 (.Scalar 1) rfl).trans
    (c5_first_return_matches_declared _ _ h).1.symm ▸ rfl⟩

/-- C5 counterexample: a body with two `return` statements compiles without
error, the declared representation is Scalar (from the first return), but the
second emitted return carries a matrix pointer — so the claim's "each return
instruction matches the declared representation" fails. -/
theorem c5_each_return_counterexample :
    compile_function (⟨"main", [.Return (.Number (1 : ℤ)),
        .Return (.MatrixLiteral [[.Number 2]])]⟩ : Function ℤ) =
      .ok ⟨"main", .Scalar, [.Scalar 1, .Matrix ⟨[2], 1, 1⟩]⟩
    ∧ (Value.Matrix (⟨[2], 1, 1⟩ : MatrixRec ℤ)).kind ≠ FunctionReturnType.Scalar := by
  constructor
  · simp [compile_function, compile_stmts, compile_expr, compile_matrix_literal,
      storeElems, storeRow, infer_return_type, inferWalk, infer_expr_type]
  · decide

/-- Instrumentation of the emitted do-while loop: the list of loop indices the
body runs on, obtained by instantiating the loop-carried state of `addLoop`
with an index log. -/
def addLoopTrace (total : Nat) : List Nat :=
  addLoop (fun i l => l ++ [i]) total 0 []

theorem addLoop_trace_general (total i : Nat) (acc : List Nat) :
    addLoop (fun k l => l ++ [k]) total i acc =
      acc ++ List.range' i (max 1 (total - i)) := by
  rw [addLoop]
  by_cases h : i + 1 < total
  · rw [if_pos h, addLoop_trace_general total (i + 1) (acc ++ [i])]
    have h1 : max 1 (total - (i + 1)) = total - (i + 1) := by omega
    have h2 : max 1 (total - i) = total - i := by omega
    have h3 : total - i = (total - (i + 1)) + 1 := by omega
    rw [h1, h2, h3, List.range'_succ]
    simp
  · rw [if_neg h]
    have h1 : max 1 (total - i) = 1 := by omega
    rw [h1]
    simp [List.range']
termination_by total - i
decreasing_by simp_wf; omega

theorem addLoopTrace_eq (total : Nat) : addLoopTrace total = List.range (max 1 total) := by
  rw [addLoopTrace, addLoop_trace_general, List.range_eq_range']
  simp

theorem set_getD {α : Type} [Inhabited α] (buf : List α) (i k : Nat) (v : α)
    (hk : k < buf.length) :
    (buf.set i v).getD k default = if i = k then v else buf.getD k default := by
  by_cases h : i = k
  · subst h
    simp [List.getD_eq_getElem?_getD, List.getElem?_set, hk]
  · simp [List.getD_eq_getElem?_getD, List.getElem?_set, h]

theorem addLoop_set_spec {α : Type} [Inhabited α] (f : Nat → α) (total i : Nat)
    (buf : List α) :
    ((addLoop (fun k b => b.set k (f k)) total i buf).length = buf.length)
    ∧ (∀ k, k < buf.length →
        (addLoop (fun k b => b.set k (f k)) total i buf).getD k default =
          if i ≤ k ∧ k < max (i + 1) total then f k else buf.getD k default) := by
  rw [addLoop]
  by_cases h : i + 1 < total
  · rw [if_pos h]
    obtain ⟨ihlen, ihget⟩ :=
      addLoop_set_spec f total (i + 1) (buf.set i (f i))
    constructor
    · rw [ihlen, List.length_set]
    · intro k hk
      have hk2 : k < (buf.set i (f i)).length := by
        rw [List.length_set]; exact hk
      rw [ihget k hk2, set_getD buf i k (f i) hk]
      have hmax1 : max (i + 2) total = total := by omega
      have hmax2 : max (i + 1) total = total := by omega
      rw [hmax1, hmax2]
      by_cases h1 : i + 1 ≤ k ∧ k < total
      · rw [if_pos h1, if_pos (by omega)]
      · rw [if_neg h1]
        by_cases h2 : i = k
        · subst h2
          rw [if_pos rfl, if_pos (by omega)]
        · rw [if_neg h2, if_neg (by omega)]
  · rw [if_neg h]
    constructor
    · exact List.length_set ..
    · intro k hk
      rw [set_getD buf i k (f i) hk]
      by_cases h2 : i = k
      · subst h2
        rw [if_pos rfl, if_pos (by omega)]
      · rw [if_neg h2, if_neg (by omega)]
termination_by total - i
decreasing_by simp_wf; omega

/-- C10: the emitted matrix-add loop tests its exit condition only after the
body, so the body executes at least once for every pair of operand records:
the visited index list is `range (max 1 total)` with `total` read off the left
operand, and when `total = 0` the body still runs on index 0 — loading element
0 of both operand buffers and storing to element 0 of the zero-length
destination buffer (on which the store is vacuous). -/
theorem c10_matrix_add_loop_body_runs_once {α : Type} [Inhabited α] [Add α]
    (A B : MatrixRec α) :
    (matrix_add A B).data =
      addLoop (fun i buf => buf.set i (A.data.getD i default + B.data.getD i default))
        (A.rows * A.cols) 0 (List.replicate (A.rows * A.cols) default)
    ∧ addLoopTrace (A.rows * A.cols) = List.range (max 1 (A.rows * A.cols))
    ∧ (addLoopTrace (A.rows * A.cols)).length = max 1 (A.rows * A.cols)
    ∧ 1 ≤ (addLoopTrace (A.rows * A.cols)).length
    ∧ (A.rows * A.cols = 0 →
        addLoopTrace (A.rows * A.cols) = [0] ∧ (matrix_add A B).data = []) := by
  refine ⟨rfl, addLoopTrace_eq _, ?_, ?_, ?_⟩
  · rw [addLoopTrace_eq, List.length_range]
  · rw [addLoopTrace_eq, List.length_range]; omega
  · intro h0
    constructor
    · rw [addLoopTrace_eq, h0]
      rfl
    · simp [matrix_add, h0, addLoop]

/-- C10 witness: a record claiming zero elements still drives one loop
iteration, on index 0, into an empty destination buffer. -/
theorem c10_matrix_add_loop_body_runs_once_witness :
    addLoopTrace 0 = [0]
    ∧ (matrix_add (⟨[], 0, 0⟩ : MatrixRec ℤ) ⟨[], 0, 0⟩).data = [] := by
  have h := c10_matrix_add_loop_body_runs_once (⟨[], 0, 0⟩ : MatrixRec ℤ) ⟨[], 0, 0⟩
  exact h.2.2.2.2 rfl

/-- C2: matrix addition of two records of declared shape R×C (with at least
one element and data buffers of length R*C) yields a record carrying the left
operand's `rows`/`cols`, a fresh buffer of length R*C whose entry `i` is
`left.data[i] + right.data[i]` for every `i < R*C`; only the left record's
dimensions are consulted — the result is unchanged under any alteration of
the right record's `rows`/`cols`. -/
theorem c2_matrix_add_correct {α : Type} [Inhabited α] [Add α] (A B : MatrixRec α)
    (R C : Nat) (hAr : A.rows = R) (hAc : A.cols = C) (hBr : B.rows = R)
    (hBc : B.cols = C) (hRC : 1 ≤ R * C) (hA : A.data.length = R * C)
    (hB : B.data.length = R * C) :
    (matrix_add A B).rows = R
    ∧ (matrix_add A B).cols = C
    ∧ (matrix_add A B).data.length = R * C
    ∧ (∀ i, i < R * C → (matrix_add A B).data.getD i default =
        A.data.getD i default + B.data.getD i default)
    ∧ (∀ B' : MatrixRec α, B'.data = B.data → matrix_add A B' = matrix_add A B) := by
  subst hAr hAc
  obtain ⟨hlen, hget⟩ :=
    addLoop_set_spec (fun k => A.data.getD k default + B.data.getD k default)
      (A.rows * A.cols) 0 (List.replicate (A.rows * A.cols) default)
  refine ⟨rfl, rfl, ?_, ?_, ?_⟩
  · simp only [matrix_add, List.length_replicate] at hlen ⊢
    exact hlen
  · intro i hi
    have hi2 : i < (List.replicate (A.rows * A.cols) (default : α)).length := by
      rw [List.length_replicate]; exact hi
    have hg := hget i hi2
    rw [if_pos (⟨Nat.zero_le i, by omega⟩ : 0 ≤ i ∧ i < max (0 + 1) (A.rows * A.cols))] at hg
    simpa only [matrix_add] using hg
  · intro B' hq
    simp only [matrix_add, hq]

/-- C2 witness: the spec's example `[[1,2],[3,4]] + [[5,6],[7,8]]` gives
`rows = 2`, `cols = 2`, `data = [6,8,10,12]`. -/
theorem c2_matrix_add_correct_witness :
    matrix_add (⟨[1, 2, 3, 4], 2, 2⟩ : MatrixRec ℤ) ⟨[5, 6, 7, 8], 2, 2⟩ =
      ⟨[6, 8, 10, 12], 2, 2⟩
    ∧ (matrix_add (⟨[1, 2, 3, 4], 2, 2⟩ : MatrixRec ℤ) ⟨[5, 6, 7, 8], 2, 2⟩).rows = 2
    ∧ (matrix_add (⟨[1, 2, 3, 4], 2, 2⟩ : MatrixRec ℤ) ⟨[5, 6, 7, 8], 2, 2⟩).data.length = 4 := by
  have h := c2_matrix_add_correct (⟨[1, 2, 3, 4], 2, 2⟩ : MatrixRec ℤ) ⟨[5, 6, 7, 8], 2, 2⟩
    2 2 rfl rfl rfl rfl (by omega) rfl rfl
  refine ⟨?_, h.1, h.2.2.1⟩
  simp [matrix_add, addLoop]

theorem storeRow_spec {α : Type} [Inhabited α] [Add α] [Sub α] [Mul α] [Div α]
    {vars : VarTable α} {base : Nat} :
    ∀ {row : List (Expr α)} {vals : List α} (j : Nat) (buf : List α),
      List.Forall₂ (fun e v => compile_expr vars e = .ok (.Scalar v)) row vals →
      base + j + row.length ≤ buf.length →
      ∃ buf₂, storeRow vars base row j buf = .ok buf₂ ∧ buf₂.length = buf.length ∧
        ∀ k, k < buf.length → buf₂.getD k default =
          if base + j ≤ k ∧ k < base + j + row.length
          then vals.getD (k - (base + j)) default
          else buf.getD k default := by
  intro row
  induction row with
  | nil =>
    intro vals j buf hf hle
    cases hf
    refine ⟨buf, by simp [storeRow], rfl, ?_⟩
    intro k hk
    rw [if_neg (by simp)]
  | cons e₀ rest ih =>
    intro vals j buf hf hle
    cases hf with
    | cons he htail =>
      rename_i v₀ vals'
      have hlen : base + (j + 1) + rest.length ≤ (buf.set (base + j) v₀).length := by
        rw [List.length_set]
        simp at hle
        omega
      obtain ⟨buf₂, hrun, hblen, hget⟩ := ih (j + 1) (buf.set (base + j) v₀) htail hlen
      refine ⟨buf₂, ?_, ?_, ?_⟩
      · simp only [storeRow, he]
        exact hrun
      · rw [hblen, List.length_set]
      · intro k hk
        have hk2 : k < (buf.set (base + j) v₀).length := by
          rw [List.length_set]; exact hk
        rw [hget k hk2, set_getD buf (base + j) k v₀ hk]
        by_cases h1 : base + (j + 1) ≤ k ∧ k < base + (j + 1) + rest.length
        · rw [if_pos h1, if_pos (by simp; omega)]
          have : k - (base + j) = (k - (base + (j + 1))) + 1 := by omega
          rw [this, List.getD_cons_succ]
        · rw [if_neg h1]
          by_cases h2 : base + j = k
          · rw [if_pos h2, if_pos (by simp; omega)]
            have : k - (base + j) = 0 := by omega
            rw [this, List.getD_cons_zero]
          · rw [if_neg h2, if_neg (by simp; omega)]

theorem storeElems_spec {α : Type} [Inhabited α] [Add α] [Sub α] [Mul α] [Div α]
    {vars : VarTable α} {C : Nat} :
    ∀ {rows : List (List (Expr α))} {vals : List (List α)} (i : Nat) (buf : List α),
      List.Forall₂
        (List.Forall₂ (fun e v => compile_expr vars e = .ok (.Scalar v))) rows vals →
      (∀ row ∈ rows, row.length = C) →
      (i + rows.length) * C ≤ buf.length →
      ∃ buf₂, storeElems vars C rows i buf = .ok buf₂ ∧ buf₂.length = buf.length ∧
        ∀ k, k < buf.length → buf₂.getD k default =
          if i * C ≤ k ∧ k < i * C + rows.length * C
          then vals.flatten.getD (k - i * C) default
          else buf.getD k default := by
  intro rows
  induction rows with
  | nil =>
    intro vals i buf hf _ _
    cases hf
    refine ⟨buf, by simp [storeElems], rfl, ?_⟩
    intro k hk
    rw [if_neg (by simp)]
  | cons row₀ rest ih =>
    intro vals i buf hf hrect hle
    cases hf with
    | cons he htail =>
      rename_i vrow₀ vals'
      rw [List.length_cons] at hle
      have hexp : (i + (rest.length + 1)) * C = i * C + rest.length * C + C := by ring
      have h3 : (i + 1) * C = i * C + C := by ring
      have h4 : (rest.length + 1) * C = rest.length * C + C := by ring
      have hrow₀ : row₀.length = C := hrect row₀ (by simp)
      have hvrow₀ : vrow₀.length = C := by
        rw [← he.length_eq, hrow₀]
      have hle₁ : i * C + 0 + row₀.length ≤ buf.length := by omega
      obtain ⟨buf₁, hrun₁, hlen₁, hget₁⟩ := storeRow_spec 0 buf he hle₁
      have hle₂ : (i + 1 + rest.length) * C ≤ buf₁.length := by
        have h5 : (i + 1 + rest.length) * C = i * C + rest.length * C + C := by ring
        rw [hlen₁]
        omega
      obtain ⟨buf₂, hrun₂, hlen₂, hget₂⟩ :=
        ih (i + 1) buf₁ htail (fun r hr => hrect r (by simp [hr])) hle₂
      refine ⟨buf₂, ?_, by rw [hlen₂, hlen₁], ?_⟩
      · simp only [storeElems, hrun₁]
        exact hrun₂
      · intro k hk
        have hk₁ : k < buf₁.length := by rw [hlen₁]; exact hk
        rw [hget₂ k hk₁, hget₁ k hk]
        simp only [Nat.add_zero, List.length_cons, List.flatten_cons]
        by_cases h1 : (i + 1) * C ≤ k ∧ k < (i + 1) * C + rest.length * C
        · rw [if_pos h1, if_pos (by omega)]
          rw [List.getD_append_right vrow₀ vals'.flatten default _ (by omega)]
          congr 1
          omega
        · rw [if_neg h1]
          by_cases h2 : i * C ≤ k ∧ k < i * C + row₀.length
          · rw [if_pos h2, if_pos (by omega)]
            rw [List.getD_append _ _ _ _ (by omega)]
          · rw [if_neg h2, if_neg (by omega)]

theorem rect_of_forall₂ {α β : Type} {P : α → β → Prop} {C : Nat} :
    ∀ {rows : List (List α)} {vals : List (List β)},
      List.Forall₂ (List.Forall₂ P) rows vals →
      (∀ row ∈ rows, row.length = C) → ∀ v ∈ vals, v.length = C := by
  intro rows vals hf
  induction hf with
  | nil => intro _ v hv; simp at hv
  | cons he htail ih =>
    intro hrect v hv
    rcases List.mem_cons.mp hv with rfl | hmem
    · rw [← he.length_eq]
      exact hrect _ (by simp)
    · exact ih (fun r hr => hrect r (by simp [hr])) v hmem

theorem flatten_length_of_rect {α : Type} {C : Nat} :
    ∀ {vals : List (List α)}, (∀ v ∈ vals, v.length = C) →
      vals.flatten.length = vals.length * C := by
  intro vals
  induction vals with
  | nil => intro _; simp
  | cons v rest ih =>
    intro h
    have hv : v.length = C := h v (by simp)
    have hrest := ih (fun r hr => h r (by simp [hr]))
    simp only [List.flatten_cons, List.length_append, List.length_cons, hv, hrest]
    ring

theorem flatten_getD_of_rect {α : Type} [Inhabited α] {C : Nat} :
    ∀ {vals : List (List α)}, (∀ v ∈ vals, v.length = C) →
      ∀ i j, i < vals.length → j < C →
        vals.flatten.getD (i * C + j) default = (vals.getD i []).getD j default := by
  intro vals
  induction vals with
  | nil => intro _ i j hi _; simp at hi
  | cons v rest ih =>
    intro h i j hi hj
    have hv : v.length = C := h v (by simp)
    cases i with
    | zero =>
      simp only [List.flatten_cons, Nat.zero_mul, Nat.zero_add, List.getD_cons_zero]
      exact List.getD_append _ _ _ _ (by omega)
    | succ i' =>
      simp only [List.flatten_cons, List.getD_cons_succ]
      have hidx : (i' + 1) * C + j = v.length + (i' * C + j) := by
        rw [hv]; ring
      rw [hidx, List.getD_append_right _ _ _ _ (by omega)]
      have : v.length + (i' * C + j) - v.length = i' * C + j := by omega
      rw [this]
      exact ih (fun r hr => h r (by simp [hr])) i' j (by simpa using hi) hj

/-- C3: a rectangular matrix literal with `R ≥ 1` rows of length `C` whose
elements all compile to scalars yields a record with `rows = R`, `cols = C`
and a buffer holding the element values in row-major order: length `R*C`,
with the value from source position `(i, j)` at flattened offset `i*C+j`. -/
theorem c3_matrix_literal_round_trip {α : Type} [Inhabited α] [Add α] [Sub α] [Mul α]
    [Div α] (vars : VarTable α) (rows : List (List (Expr α))) (vals : List (List α))
    (C : Nat) (hne : rows ≠ [])
    (hrect : ∀ row ∈ rows, row.length = C)
    (hcomp : List.Forall₂
      (List.Forall₂ (fun e v => compile_expr vars e = .ok (.Scalar v))) rows vals) :
    compile_matrix_literal vars rows = .ok (.Matrix ⟨vals.flatten, rows.length, C⟩)
    ∧ vals.flatten.length = rows.length * C
    ∧ (∀ i j, i < rows.length → j < C →
        vals.flatten.getD (i * C + j) default = (vals.getD i []).getD j default) := by
  have hvrect : ∀ v ∈ vals, v.length = C := rect_of_forall₂ hcomp hrect
  have hvlen : vals.length = rows.length := hcomp.length_eq.symm
  have hflatlen : vals.flatten.length = rows.length * C := by
    rw [flatten_length_of_rect hvrect, hvlen]
  refine ⟨?_, hflatlen, fun i j hi hj => flatten_getD_of_rect hvrect i j (by omega) hj⟩
  have hC : (rows.headD []).length = C := by
    obtain ⟨row₀, rest, rfl⟩ := List.exists_cons_of_ne_nil hne
    exact hrect row₀ (by simp)
  have hnz : rows.length ≠ 0 := fun h => hne (List.length_eq_zero.mp h)
  obtain ⟨buf₂, hrun, hblen, hget⟩ :=
    storeElems_spec (C := C) 0 (List.replicate (rows.length * C) default) hcomp hrect
      (by rw [List.length_replicate]; exact le_of_eq (by ring))
  have hbuf : buf₂ = vals.flatten := by
    apply List.ext_getElem
    · rw [hblen, List.length_replicate, hflatlen]
    · intro n h₁ h₂
      have hn : n < (List.replicate (rows.length * C) (default : α)).length := by
        rw [List.length_replicate]
        rw [hblen, List.length_replicate] at h₁
        exact h₁
      have hv := hget n hn
      simp only [Nat.zero_mul, Nat.zero_add, Nat.sub_zero, Nat.zero_le, true_and] at hv
      rw [if_pos (by rw [List.length_replicate] at hn; exact hn)] at hv
      rw [← List.getD_eq_getElem buf₂ default h₁, ← List.getD_eq_getElem _ default h₂, hv]
  have hall : rows.all (fun row => row.length = C) = true := by
    simpa [List.all_eq_true] using hrect
  simp only [compile_matrix_literal, hC]
  rw [if_neg hnz, if_pos hall]
  simp [hrun, hbuf]

/-- C3 witness: the literal `[[1,2],[3,4]]` produces `rows = 2`, `cols = 2`,
row-major data `[1,2,3,4]`. -/
theorem c3_matrix_literal_round_trip_witness :
    compile_matrix_literal ([] : VarTable ℤ)
      [[.Number 1, .Number 2], [.Number 3, .Number 4]] =
      .ok (.Matrix ⟨[1, 2, 3, 4], 2, 2⟩)
    ∧ ([[1, 2], [3, 4]] : List (List ℤ)).flatten.length = 2 * 2 := by
  have h := c3_matrix_literal_round_trip ([] : VarTable ℤ)
    [[.Number 1, .Number 2], [.Number 3, .Number 4]] [[1, 2], [3, 4]] 2
    (by simp)
    (by intro row hrow; simp at hrow; rcases hrow with rfl | rfl <;> simp)
    (by
      refine List.Forall₂.cons ?_ (List.Forall₂.cons ?_ List.Forall₂.nil) <;>
        refine List.Forall₂.cons (by simp [compile_expr]) ?_ <;>
        exact List.Forall₂.cons (by simp [compile_expr]) List.Forall₂.nil)
  exact ⟨h.1, h.2.1⟩

theorem all_tail {β : Type} {p : β → Bool} {t : β} {l : List β}
    (h : (t :: l).all p = true) : l.all p = true := by
  rw [List.all_cons, Bool.and_eq_true] at h
  exact h.2

/-- Token lists whose head would continue a term (`*` or `/` next). -/
def termCont {α : Type} : List (Token α) → Bool
  | .Star :: _ => true
  | .Slash :: _ => true
  | _ => false

/-- Token lists whose head would continue an expression (`+` or `-` next). -/
def exprCont {α : Type} : List (Token α) → Bool
  | .Plus :: _ => true
  | .Minus :: _ => true
  | _ => false

theorem termCont_eq_false_of_noCont {α : Type} {w : List (Token α)}
    (h : noCont w = true) : termCont w = false := by
  cases w with
  | nil => rfl
  | cons t w₁ => cases t <;> first | rfl | simp [noCont] at h

theorem exprCont_eq_false_of_noCont {α : Type} {w : List (Token α)}
    (h : noCont w = true) : exprCont w = false := by
  cases w with
  | nil => rfl
  | cons t w₁ => cases t <;> first | rfl | simp [noCont] at h

theorem parse_term_tail_stop {α : Type} (n : Nat) (e₀ : Expr α) (ts : List (Token α))
    (h : termCont ts = false) : parse_term_tail (n + 1) e₀ ts = .ok (e₀, ts) := by
  cases ts with
  | nil => rfl
  | cons t ts₁ => cases t <;> first | rfl | simp [termCont] at h

theorem parse_expr_tail_stop {α : Type} (n : Nat) (e₀ : Expr α) (ts : List (Token α))
    (h : exprCont ts = false) : parse_expr_tail (n + 1) e₀ ts = .ok (e₀, ts) := by
  cases ts with
  | nil => rfl
  | cons t ts₁ => cases t <;> first | rfl | simp [exprCont] at h

theorem parse_expr_step {α : Type} (n : Nat) (ts : List (Token α)) :
    parse_expr (n + 1) ts =
      match parse_term n ts with
      | .error e => .error e
      | .ok (left, ts₁) => parse_expr_tail n left ts₁ := rfl

theorem parse_term_step {α : Type} (n : Nat) (ts : List (Token α)) :
    parse_term (n + 1) ts =
      match parse_factor n ts with
      | .error e => .error e
      | .ok (left, ts₁) => parse_term_tail n left ts₁ := rfl

theorem parse_factor_lparen {α : Type} (n : Nat) (ts : List (Token α)) :
    parse_factor (n + 1) (.LParen :: ts) =
      match parse_expr n ts with
      | .error e => .error e
      | .ok (e, ts₂) =>
        match ts₂ with
        | .RParen :: ts₃ => .ok (e, ts₃)
        | _ => .error "Expected RParen" := rfl

theorem parse_term_tail_star {α : Type} (n : Nat) (e₀ : Expr α) (ts : List (Token α)) :
    parse_term_tail (n + 1) e₀ (.Star :: ts) =
      match parse_factor n ts with
      | .error e => .error e
      | .ok (right, ts₁) => parse_term_tail n (.BinaryOp e₀ .Multiply right) ts₁ := rfl

theorem parse_term_tail_slash {α : Type} (n : Nat) (e₀ : Expr α) (ts : List (Token α)) :
    parse_term_tail (n + 1) e₀ (.Slash :: ts) =
      match parse_factor n ts with
      | .error e => .error e
      | .ok (right, ts₁) => parse_term_tail n (.BinaryOp e₀ .Divide right) ts₁ := rfl

theorem parse_expr_tail_plus {α : Type} (n : Nat) (e₀ : Expr α) (ts : List (Token α)) :
    parse_expr_tail (n + 1) e₀ (.Plus :: ts) =
      match parse_term n ts with
      | .error e => .error e
      | .ok (right, ts₁) => parse_expr_tail n (.BinaryOp e₀ .Add right) ts₁ := rfl

theorem parse_expr_tail_minus {α : Type} (n : Nat) (e₀ : Expr α) (ts : List (Token α)) :
    parse_expr_tail (n + 1) e₀ (.Minus :: ts) =
      match parse_term n ts with
      | .error e => .error e
      | .ok (right, ts₁) => parse_expr_tail n (.BinaryOp e₀ .Subtract right) ts₁ := rfl

theorem specEvalExpr_step {α : Type} [Add α] [Sub α] [Mul α] [Div α] (n : Nat)
    (ts : List (Token α)) :
    specEvalExpr (n + 1) ts =
      match specEvalTerm n ts with
      | .error e => .error e
      | .ok (v, ts₁) => specEvalExprTail n v ts₁ := rfl

theorem specEvalTerm_step {α : Type} [Add α] [Sub α] [Mul α] [Div α] (n : Nat)
    (ts : List (Token α)) :
    specEvalTerm (n + 1) ts =
      match specEvalFactor n ts with
      | .error e => .error e
      | .ok (v, ts₁) => specEvalTermTail n v ts₁ := rfl

theorem specEvalFactor_lparen {α : Type} [Add α] [Sub α] [Mul α] [Div α] (n : Nat)
    (ts : List (Token α)) :
    specEvalFactor (n + 1) (.LParen :: ts) =
      match specEvalExpr n ts with
      | .error e => .error e
      | .ok (v, ts₂) =>
        match ts₂ with
        | .RParen :: ts₃ => .ok (v, ts₃)
        | _ => .error "Expected RParen" := rfl

theorem specEvalTermTail_star {α : Type} [Add α] [Sub α] [Mul α] [Div α] (n : Nat)
    (v : α) (ts : List (Token α)) :
    specEvalTermTail (n + 1) v (.Star :: ts) =
      match specEvalFactor n ts with
      | .error e => .error e
      | .ok (w, ts₁) => specEvalTermTail n (v * w) ts₁ := rfl

theorem specEvalTermTail_slash {α : Type} [Add α] [Sub α] [Mul α] [Div α] (n : Nat)
    (v : α) (ts : List (Token α)) :
    specEvalTermTail (n + 1) v (.Slash :: ts) =
      match specEvalFactor n ts with
      | .error e => .error e
      | .ok (w, ts₁) => specEvalTermTail n (v / w) ts₁ := rfl

theorem specEvalExprTail_plus {α : Type} [Add α] [Sub α] [Mul α] [Div α] (n : Nat)
    (v : α) (ts : List (Token α)) :
    specEvalExprTail (n + 1) v (.Plus :: ts) =
      match specEvalTerm n ts with
      | .error e => .error e
      | .ok (w, ts₁) => specEvalExprTail n (v + w) ts₁ := rfl

theorem specEvalExprTail_minus {α : Type} [Add α] [Sub α] [Mul α] [Div α] (n : Nat)
    (v : α) (ts : List (Token α)) :
    specEvalExprTail (n + 1) v (.Minus :: ts) =
      match specEvalTerm n ts with
      | .error e => .error e
      | .ok (w, ts₁) => specEvalExprTail n (v - w) ts₁ := rfl

theorem parse_matches_specEval {α : Type} [Inhabited α] [Add α] [Sub α] [Mul α] [Div α] :
    ∀ n : Nat,
    (∀ (u w : List (Token α)) (v : α) (r : List (Token α)),
      u.all isScalarTok = true → noCont w = true → specEvalFactor n u = .ok (v, r) →
      (∃ e, parse_factor n (u ++ w) = .ok (e, r ++ w) ∧
        ∀ vars : VarTable α, compile_expr vars e = .ok (.Scalar v)) ∧
        r.all isScalarTok = true)
    ∧ (∀ (u w : List (Token α)) (v₀ vf : α) (r : List (Token α)) (e₀ : Expr α),
      u.all isScalarTok = true → noCont w = true →
      (∀ vars : VarTable α, compile_expr vars e₀ = .ok (.Scalar v₀)) →
      specEvalTermTail n v₀ u = .ok (vf, r) →
      (∃ e, parse_term_tail n e₀ (u ++ w) = .ok (e, r ++ w) ∧
        ∀ vars : VarTable α, compile_expr vars e = .ok (.Scalar vf)) ∧
        r.all isScalarTok = true)
    ∧ (∀ (u w : List (Token α)) (v : α) (r : List (Token α)),
      u.all isScalarTok = true → noCont w = true → specEvalTerm n u = .ok (v, r) →
      (∃ e, parse_term n (u ++ w) = .ok (e, r ++ w) ∧
        ∀ vars : VarTable α, compile_expr vars e = .ok (.Scalar v)) ∧
        r.all isScalarTok = true)
    ∧ (∀ (u w : List (Token α)) (v₀ vf : α) (r : List (Token α)) (e₀ : Expr α),
      u.all isScalarTok = true → noCont w = true →
      (∀ vars : VarTable α, compile_expr vars e₀ = .ok (.Scalar v₀)) →
      specEvalExprTail n v₀ u = .ok (vf, r) →
      (∃ e, parse_expr_tail n e₀ (u ++ w) = .ok (e, r ++ w) ∧
        ∀ vars : VarTable α, compile_expr vars e = .ok (.Scalar vf)) ∧
        r.all isScalarTok = true)
    ∧ (∀ (u w : List (Token α)) (v : α) (r : List (Token α)),
      u.all isScalarTok = true → noCont w = true → specEvalExpr n u = .ok (v, r) →
      (∃ e, parse_expr n (u ++ w) = .ok (e, r ++ w) ∧
        ∀ vars : VarTable α, compile_expr vars e = .ok (.Scalar v)) ∧
        r.all isScalarTok = true) := by
  intro n
  induction n with
  | zero =>
    refine ⟨?_, ?_, ?_, ?_, ?_⟩
    · intro u w v r _ _ hok
      simp [specEvalFactor] at hok
    · intro u w v₀ vf r e₀ _ _ _ hok
      simp [specEvalTermTail] at hok
    · intro u w v r _ _ hok
      simp [specEvalTerm] at hok
    · intro u w v₀ vf r e₀ _ _ _ hok
      simp [specEvalExprTail] at hok
    · intro u w v r _ _ hok
      simp [specEvalExpr] at hok
  | succ n ih =>
    obtain ⟨ihf, ihtt, iht, ihet, ihe⟩ := ih
    refine ⟨?_, ?_, ?_, ?_, ?_⟩
    · -- parse_factor mirrors the spec factor rule
      intro u w v r hu hw hok
      cases u with
      | nil => exact Except.noConfusion hok
      | cons t u₁ =>
        cases t
        case Number x =>
          obtain ⟨rfl, rfl⟩ := Prod.mk.inj (Except.ok.inj hok)
          refine ⟨⟨.Number x, ?_, ?_⟩, all_tail hu⟩
          · rw [List.cons_append]
            rfl
          · intro vars
            simp [compile_expr]
        case LParen =>
          have hu₁ : u₁.all isScalarTok = true := all_tail hu
          rw [specEvalFactor_lparen] at hok
          cases hex : specEvalExpr n u₁ with
          | error m => rw [hex] at hok; exact Except.noConfusion hok
          | ok p =>
            obtain ⟨v₁, ts₂⟩ := p
            rw [hex] at hok
            obtain ⟨⟨e, hpe, hce⟩, hts₂⟩ := ihe u₁ w v₁ ts₂ hu₁ hw hex
            cases ts₂ with
            | nil => exact Except.noConfusion hok
            | cons t₂ ts₃ =>
              cases t₂ <;> try exact Except.noConfusion hok
              obtain ⟨rfl, rfl⟩ := Prod.mk.inj (Except.ok.inj hok)
              refine ⟨⟨e, ?_, hce⟩, all_tail hts₂⟩
              rw [List.cons_append, parse_factor_lparen, hpe]
              rfl
        all_goals exact Except.noConfusion hok
    · -- parse_term_tail mirrors the spec term continuation
      intro u w v₀ vf r e₀ hu hw hc₀ hok
      cases u with
      | nil =>
        obtain ⟨rfl, rfl⟩ := Prod.mk.inj (Except.ok.inj hok)
        refine ⟨⟨e₀, ?_, hc₀⟩, by simp⟩
        rw [List.nil_append]
        exact parse_term_tail_stop n e₀ w (termCont_eq_false_of_noCont hw)
      | cons t u₁ =>
        cases t
        case Star =>
          rw [specEvalTermTail_star] at hok
          cases hf : specEvalFactor n u₁ with
          | error m => rw [hf] at hok; exact Except.noConfusion hok
          | ok p =>
            obtain ⟨w₂, ts₁⟩ := p
            rw [hf] at hok
            have hu₁ : u₁.all isScalarTok = true := all_tail hu
            obtain ⟨⟨e₂, hpe₂, hce₂⟩, hts₁⟩ := ihf u₁ w w₂ ts₁ hu₁ hw hf
            have hcop : ∀ vars : VarTable α,
                compile_expr vars (.BinaryOp e₀ .Multiply e₂) =
                  .ok (.Scalar (v₀ * w₂)) := by
              intro vars
              simp [compile_expr, hc₀ vars, hce₂ vars, applyOp]
            obtain ⟨⟨e, hpe, hce⟩, hr⟩ :=
              ihtt ts₁ w (v₀ * w₂) vf r (.BinaryOp e₀ .Multiply e₂) hts₁ hw hcop hok
            refine ⟨⟨e, ?_, hce⟩, hr⟩
            rw [List.cons_append, parse_term_tail_star, hpe₂]
            exact hpe
        case Slash =>
          rw [specEvalTermTail_slash] at hok
          cases hf : specEvalFactor n u₁ with
          | error m => rw [hf] at hok; exact Except.noConfusion hok
          | ok p =>
            obtain ⟨w₂, ts₁⟩ := p
            rw [hf] at hok
            have hu₁ : u₁.all isScalarTok = true := all_tail hu
            obtain ⟨⟨e₂, hpe₂, hce₂⟩, hts₁⟩ := ihf u₁ w w₂ ts₁ hu₁ hw hf
            have hcop : ∀ vars : VarTable α,
                compile_expr vars (.BinaryOp e₀ .Divide e₂) =
                  .ok (.Scalar (v₀ / w₂)) := by
              intro vars
              simp [compile_expr, hc₀ vars, hce₂ vars, applyOp]
            obtain ⟨⟨e, hpe, hce⟩, hr⟩ :=
              ihtt ts₁ w (v₀ / w₂) vf r (.BinaryOp e₀ .Divide e₂) hts₁ hw hcop hok
            refine ⟨⟨e, ?_, hce⟩, hr⟩
            rw [List.cons_append, parse_term_tail_slash, hpe₂]
            exact hpe
        all_goals (
          obtain ⟨rfl, rfl⟩ := Prod.mk.inj (Except.ok.inj hok) ;
          exact ⟨⟨e₀, parse_term_tail_stop n e₀ _ rfl, hc₀⟩, hu⟩)
    · -- parse_term mirrors the spec term rule
      intro u w v r hu hw hok
      rw [specEvalTerm_step] at hok
      cases hf : specEvalFactor n u with
      | error m => rw [hf] at hok; exact Except.noConfusion hok
      | ok p =>
        obtain ⟨v₁, ts₁⟩ := p
        rw [hf] at hok
        obtain ⟨⟨e₁, hp₁, hc₁⟩, hts₁⟩ := ihf u w v₁ ts₁ hu hw hf
        obtain ⟨⟨e, hp₂, hc⟩, hr⟩ := ihtt ts₁ w v₁ v r e₁ hts₁ hw hc₁ hok
        refine ⟨⟨e, ?_, hc⟩, hr⟩
        rw [parse_term_step, hp₁]
        exact hp₂
    · -- parse_expr_tail mirrors the spec expression continuation
      intro u w v₀ vf r e₀ hu hw hc₀ hok
      cases u with
      | nil =>
        obtain ⟨rfl, rfl⟩ := Prod.mk.inj (Except.ok.inj hok)
        refine ⟨⟨e₀, ?_, hc₀⟩, by simp⟩
        rw [List.nil_append]
        exact parse_expr_tail_stop n e₀ w (exprCont_eq_false_of_noCont hw)
      | cons t u₁ =>
        cases t
        case Plus =>
          rw [specEvalExprTail_plus] at hok
          cases hf : specEvalTerm n u₁ with
          | error m => rw [hf] at hok; exact Except.noConfusion hok
          | ok p =>
            obtain ⟨w₂, ts₁⟩ := p
            rw [hf] at hok
            have hu₁ : u₁.all isScalarTok = true := all_tail hu
            obtain ⟨⟨e₂, hpe₂, hce₂⟩, hts₁⟩ := iht u₁ w w₂ ts₁ hu₁ hw hf
            have hcop : ∀ vars : VarTable α,
                compile_expr vars (.BinaryOp e₀ .Add e₂) =
                  .ok (.Scalar (v₀ + w₂)) := by
              intro vars
              simp [compile_expr, hc₀ vars, hce₂ vars, applyOp]
            obtain ⟨⟨e, hpe, hce⟩, hr⟩ :=
              ihet ts₁ w (v₀ + w₂) vf r (.BinaryOp e₀ .Add e₂) hts₁ hw hcop hok
            refine ⟨⟨e, ?_, hce⟩, hr⟩
            rw [List.cons_append, parse_expr_tail_plus, hpe₂]
            exact hpe
        case Minus =>
          rw [specEvalExprTail_minus] at hok
          cases hf : specEvalTerm n u₁ with
          | error m => rw [hf] at hok; exact Except.noConfusion hok
          | ok p =>
            obtain ⟨w₂, ts₁⟩ := p
            rw [hf] at hok
            have hu₁ : u₁.all isScalarTok = true := all_tail hu
            obtain ⟨⟨e₂, hpe₂, hce₂⟩, hts₁⟩ := iht u₁ w w₂ ts₁ hu₁ hw hf
            have hcop : ∀ vars : VarTable α,
                compile_expr vars (.BinaryOp e₀ .Subtract e₂) =
                  .ok (.Scalar (v₀ - w₂)) := by
              intro vars
              simp [compile_expr, hc₀ vars, hce₂ vars, applyOp]
            obtain ⟨⟨e, hpe, hce⟩, hr⟩ :=
              ihet ts₁ w (v₀ - w₂) vf r (.BinaryOp e₀ .Subtract e₂) hts₁ hw hcop hok
            refine ⟨⟨e, ?_, hce⟩, hr⟩
            rw [List.cons_append, parse_expr_tail_minus, hpe₂]
            exact hpe
        all_goals (
          obtain ⟨rfl, rfl⟩ := Prod.mk.inj (Except.ok.inj hok) ;
          exact ⟨⟨e₀, parse_expr_tail_stop n e₀ _ rfl, hc₀⟩, hu⟩)
    · -- parse_expr mirrors the spec expression rule
      intro u w v r hu hw hok
      rw [specEvalExpr_step] at hok
      cases hf : specEvalTerm n u with
      | error m => rw [hf] at hok; exact Except.noConfusion hok
      | ok p =>
        obtain ⟨v₁, ts₁⟩ := p
        rw [hf] at hok
        obtain ⟨⟨e₁, hp₁, hc₁⟩, hts₁⟩ := iht u w v₁ ts₁ hu hw hf
        obtain ⟨⟨e, hp₂, hc⟩, hr⟩ := ihet ts₁ w v₁ v r e₁ hts₁ hw hc₁ hok
        refine ⟨⟨e, ?_, hc⟩, hr⟩
        rw [parse_expr_step, hp₁]
        exact hp₂

theorem parse_stmt_return {α : Type} (n : Nat) (ts : List (Token α)) :
    parse_stmt (n + 1) (.Return :: ts) =
      match parse_expr n ts with
      | .error e => .error e
      | .ok (e, ts₁) =>
        match ts₁ with
        | .SemiColon :: ts₂ => .ok (.Return e, ts₂)
        | _ => .error "Expected SemiColon" := rfl

theorem parse_stmts_return {α : Type} (n : Nat) (ts : List (Token α)) :
    parse_stmts (n + 1) (.Return :: ts) =
      match parse_stmt n (.Return :: ts) with
      | .error e => .error e
      | .ok (s, ts₁) =>
        match parse_stmts n ts₁ with
        | .error e => .error e
        | .ok (ss, ts₂) => .ok (s :: ss, ts₂) := rfl

theorem parse_function_step {α : Type} (n : Nat) (name : String) (ts : List (Token α)) :
    parse_function (n + 1) (.Fn :: .Identifier name :: .LParen :: .RParen :: .LBrace :: ts) =
      match parse_stmts n ts with
      | .error e => .error e
      | .ok (body, ts₁) =>
        match ts₁ with
        | .RBrace :: ts₂ => .ok (⟨name, body⟩, ts₂)
        | _ => .error "Expected RBrace" := rfl

theorem parse_program_fn {α : Type} (n : Nat) (ts : List (Token α)) :
    parse_program (n + 1) (.Fn :: ts) =
      match parse_function n (.Fn :: ts) with
      | .error e => .error e
      | .ok (f, ts₁) =>
        match parse_program n ts₁ with
        | .error e => .error e
        | .ok p => .ok ⟨f :: p.functions⟩ := rfl

/-- C1: for every well-formed scalar `EXPR` — token sequence `ts` over numeric
literals, `+ - * /` and parentheses that the spec grammar accepts in full with
value `v` (left-associative, `*`/`/` tighter than `+`/`-`, parentheses
overriding) — parsing `fn main(){ return EXPR; }` succeeds, code generation
succeeds with a scalar-returning `main`, and `Jit.run` on `"main"` returns
exactly `v`, the value of `EXPR`. -/
theorem c1_scalar_pipeline {α : Type} [Inhabited α] [Add α] [Sub α] [Mul α] [Div α]
    (ts : List (Token α)) (fuel : Nat) (v : α)
    (hts : ts.all isScalarTok = true)
    (heval : specEvalExpr fuel ts = .ok (v, [])) :
    ∃ e : Expr α,
      parse_program (fuel + 4) (mainTokens ts) = .ok ⟨[⟨"main", [.Return e]⟩]⟩
      ∧ compile_program (⟨[⟨"main", [.Return e]⟩]⟩ : Program α) =
          .ok [⟨"main", .Scalar, [.Scalar v]⟩]
      ∧ Jit.run [(⟨"main", .Scalar, [.Scalar v]⟩ : CompiledFunction α)] "main" = .ok v := by
  obtain ⟨⟨e, hp, hc⟩, -⟩ :=
    (parse_matches_specEval fuel).2.2.2.2 ts [.SemiColon, .RBrace] v [] hts rfl heval
  have h1 : parse_stmt (fuel + 1) (.Return :: (ts ++ [.SemiColon, .RBrace])) =
      .ok (.Return e, [.RBrace]) := by
    rw [parse_stmt_return, hp]
    rfl
  have h2 : parse_stmts (fuel + 2) (.Return :: (ts ++ [.SemiColon, .RBrace])) =
      .ok ([.Return e], [.RBrace]) := by
    rw [parse_stmts_return, h1]
    rfl
  have h3 : parse_function (fuel + 3)
      (.Fn :: .Identifier "main" :: .LParen :: .RParen :: .LBrace ::
        (.Return :: (ts ++ [.SemiColon, .RBrace]))) =
      .ok (⟨"main", [.Return e]⟩, []) := by
    rw [parse_function_step, h2]
  have h4 : parse_program (fuel + 4) (mainTokens ts) =
      .ok ⟨[⟨"main", [.Return e]⟩]⟩ := by
    rw [mainTokens, parse_program_fn, h3]
    rfl
  have hce : compile_expr ([] : VarTable α) e = .ok (.Scalar v) := hc []
  have hinfer : infer_return_type (⟨"main", [.Return e]⟩ : Function α) = .Scalar := by
    have hk := compile_expr_kind e [] [] (.Scalar v) (fun _ => rfl) hce
    simpa [infer_return_type, inferWalk, Value.kind] using hk
  have hcf : compile_function (⟨"main", [.Return e]⟩ : Function α) =
      .ok ⟨"main", .Scalar, [.Scalar v]⟩ := by
    simp only [compile_function, compile_stmts, hce, hinfer]
  have hcp : compile_program (⟨[⟨"main", [.Return e]⟩]⟩ : Program α) =
      .ok [⟨"main", .Scalar, [.Scalar v]⟩] := by
    simp only [compile_program, compile_functions, hcf]
  have hrun : Jit.run [(⟨"main", .Scalar, [.Scalar v]⟩ : CompiledFunction α)] "main" =
      .ok v := by
    simp [Jit.run, List.find?]
  exact ⟨e, h4, hcp, hrun⟩

/-- C1 witness: the program `fn main(){ return 1 + 2 * 3; }` parses, compiles
and runs, and the JIT call returns 7 — `*` binding tighter than `+`. -/
theorem c1_scalar_pipeline_witness :
    ∃ e : Expr ℤ,
      parse_program 9 (mainTokens [.Number 1, .Plus, .Number 2, .Star, .Number 3]) =
        .ok ⟨[⟨"main", [.Return e]⟩]⟩
      ∧ compile_program (⟨[⟨"main", [.Return e]⟩]⟩ : Program ℤ) =
          .ok [⟨"main", .Scalar, [.Scalar 7]⟩]
      ∧ Jit.run [(⟨"main", .Scalar, [.Scalar (7 : ℤ)]⟩ : CompiledFunction ℤ)] "main" =
          .ok 7 := by
  exact c1_scalar_pipeline [.Number 1, .Plus, .Number 2, .Star, .Number 3] 5 7
    rfl rfl

end MatrixScript
